import Mathlib

/-!
Verification of the Odin Swift wrapper setup script (Setup.py).

The script reads the version string declared in Sources/OdinKit.swift via the
regular expression whose literal part is the marker below followed by a
quoted value, builds a download URL from a fixed template, downloads the
archive into a scoped temporary file, and extracts all entries into the
Frameworks directory.

The embedding below models the string processing exactly as the source does
(re.findall with the pattern, then index 0), and models the main block as a
function from an abstract world (contents of the version file, response of
the network) and an abstract filesystem to an outcome, an event trace and a
new filesystem.
-/

namespace OdinSetup

/-! ### Version extraction (get_xcframework_version) -/

/-- The double-quote character, written by code so that string literals in
this file stay free of escapes. -/
def dquote : Char := Char.ofNat 34

/-- Value of `coresdk_url` in Setup.py. -/
def coresdk_url : List Char := "https://github.com/4Players/odin-sdk".toList

/-- URL built in the main block:
coresdk_url + "/releases/download/v" + version + "/odin-xcframework.tgz". -/
def xcframework_url (version : List Char) : List Char :=
  coresdk_url ++ "/releases/download/v".toList ++ version ++ "/odin-xcframework.tgz".toList

/-- Literal part of the regex pattern in get_xcframework_version: the text
`let version = ` followed by the opening double quote. -/
def marker : List Char := "let version = ".toList ++ [dquote]

/-- Split a character list at its first double quote: `some (v, r)` when the
list is `v ++ dquote :: r` with no double quote in `v`; `none` when the list
has no double quote.  This is how the greedy group `([^...]+)` excluding the
quote and followed by the closing quote matches: the group captures
everything up to the first quote. -/
def splitAtQuote : List Char → Option (List Char × List Char)
  | [] => none
  | c :: cs =>
    if c = dquote then some ([], cs)
    else
      match splitAtQuote cs with
      | some (v, r) => some (c :: v, r)
      | none => none

/-- Scanner of re.findall, with fuel for totality (the fuel is only a
termination device: `findall` supplies the length of the text, which always
suffices because every recursive call is on a strictly shorter list).  At
each position: if the pattern matches (marker, then a nonempty run of
non-quote characters, then a quote), record the captured group and continue
after the match; otherwise advance one character. -/
def findallAux : Nat → List Char → List (List Char)
  | 0, _ => []
  | _, [] => []
  | fuel + 1, c :: cs =>
    if marker.isPrefixOf (c :: cs) then
      match splitAtQuote ((c :: cs).drop marker.length) with
      | some (v, r) => if v = [] then findallAux fuel cs else v :: findallAux fuel r
      | none => findallAux fuel cs
    else findallAux fuel cs

/-- Model of re.findall over the version pattern: the list of all captured
groups, scanning left to right without overlap. -/
def findall (text : List Char) : List (List Char) :=
  findallAux text.length text

/-- Model of get_xcframework_version applied to the text of the version
file: `re.findall(...)[0]`.  Indexing an empty list raises in Python; the
embedding returns `none` in that case. -/
def get_xcframework_version (text : List Char) : Option (List Char) :=
  (findall text).head?

/-- The first captured group alone (no continuation after a match): a
structurally recursive scan used to reason about the head of `findall`. -/
def firstMatch : List Char → Option (List Char)
  | [] => none
  | c :: cs =>
    if marker.isPrefixOf (c :: cs) then
      match splitAtQuote ((c :: cs).drop marker.length) with
      | some (v, _) => if v = [] then firstMatch cs else some v
      | none => firstMatch cs
    else firstMatch cs

/-- Statement that the text decomposes as
`pre ++ marker ++ v ++ dquote :: post` with `v` a nonempty run of characters
none of which is a double quote — one occurrence of the version pattern,
starting after `pre`. -/
def IsOccurrence (text pre v post : List Char) : Prop :=
  text = pre ++ marker ++ v ++ dquote :: post ∧ v ≠ [] ∧ dquote ∉ v

/-! ### Filesystem, archive and the main block

The main block of Setup.py is modelled as a function of an abstract world
(the contents of Sources/OdinKit.swift, if the file exists, and the network
response for each URL) and an abstract filesystem.  It returns the outcome
(success or the error of the step that raised), the trace of observable
events in program order, and the filesystem after the run.  Paths are lists
of components relative to the directory of the script. -/

/-- One member of the downloaded tar archive: its path (as components, a
component may be the literal `..`) and its bytes. -/
structure TarEntry where
  path : List String
  content : List Char
deriving DecidableEq

/-- The body delivered by the network: a well-formed archive with its
entries, or bytes that tarfile.open rejects. -/
inductive ArchiveBody
  | corrupt
  | valid (entries : List TarEntry)

/-- Behaviour of the network for one URL: urlopen raises, the body read
fails after the connection is open, or the body is delivered whole. -/
inductive NetResult
  | connectFail
  | readFail
  | ok (body : ArchiveBody)

/-- Abstract inputs of one run: the text of Sources/OdinKit.swift when that
file exists, and the network's response per URL. -/
structure World where
  versionFile : Option (List Char)
  network : List Char → NetResult

/-- Failure exits of the run: FileNotFoundError from open, IndexError from
indexing an empty findall result, an urllib error, a tarfile error. -/
inductive RunError
  | notFound
  | formatError
  | networkError
  | extractionError
deriving DecidableEq

/-- Observable events of the run, in program order. -/
inductive Event
  | versionResolved
  | fetch (url : List Char)
  | tempCreated
  | tempDeleted
  | downloaded
  | wrote (path : List String)
  | extracted
  | done
deriving DecidableEq

/-- Phase markers of the linear state machine, among the events. -/
def isPhase : Event → Bool
  | Event.versionResolved => true
  | Event.downloaded => true
  | Event.extracted => true
  | Event.done => true
  | _ => false

/-- The four transitions of a complete run, in order. -/
def phaseList : List Event :=
  [Event.versionResolved, Event.downloaded, Event.extracted, Event.done]

/-- The filesystem under the script directory: path components to bytes. -/
def FS : Type := List String → Option (List Char)

/-- Write (create or overwrite, no confirmation) one file. -/
def writeFile (fs : FS) (p : List String) (c : List Char) : FS :=
  fun q => if q = p then some c else fs q

/-- Joining an entry path onto a base directory, with the OS resolving the
components: a `..` component removes the last component accumulated so
far. -/
def resolvePath (base : List String) : List String → List String
  | [] => base
  | comp :: rest =>
    if comp = ".." then resolvePath base.dropLast rest
    else resolvePath (base ++ [comp]) rest

/-- The extraction destination `os.path.join(script_path, "Frameworks")`,
relative to the script. -/
def frameworks_dir : List String := ["Frameworks"]

/-- Where extracting into the Frameworks directory puts one entry. -/
def destPath (e : TarEntry) : List String :=
  resolvePath frameworks_dir e.path

/-- Model of tar.extractall: write every entry, in order, at its
destination. -/
def extractAll (entries : List TarEntry) (fs : FS) : FS :=
  entries.foldl (fun acc e => writeFile acc (destPath e) e.content) fs

/-- The content written last at `p` by extracting `entries`, if any. -/
def lastWrite (entries : List TarEntry) (p : List String) : Option (List Char) :=
  (entries.reverse.find? (fun e => decide (destPath e = p))).map TarEntry.content

/-- The first option when it holds a value, the fallback otherwise. -/
def orDefault (o fallback : Option (List Char)) : Option (List Char) :=
  match o with
  | some c => some c
  | none => fallback

/-- Outcome, event trace and final filesystem of one run. -/
structure RunResult where
  result : Except RunError Unit
  trace : List Event
  fs : FS

/-- Model of the main block of Setup.py over the abstract world: read the
version file (NotFound if absent), extract the version (IndexError if the
pattern never matches), build the URL, open the connection, buffer the body
in a scoped temporary file that is deleted whenever its scope exits, open
the buffered archive and extract all entries into Frameworks, report
completion. -/
def run (w : World) (fs : FS) : RunResult :=
  match w.versionFile with
  | none => ⟨Except.error RunError.notFound, [], fs⟩
  | some text =>
    match get_xcframework_version text with
    | none => ⟨Except.error RunError.formatError, [], fs⟩
    | some v =>
      match w.network (xcframework_url v) with
      | NetResult.connectFail =>
        ⟨Except.error RunError.networkError,
          [Event.versionResolved, Event.fetch (xcframework_url v)], fs⟩
      | NetResult.readFail =>
        ⟨Except.error RunError.networkError,
          [Event.versionResolved, Event.fetch (xcframework_url v),
            Event.tempCreated, Event.tempDeleted], fs⟩
      | NetResult.ok ArchiveBody.corrupt =>
        ⟨Except.error RunError.extractionError,
          [Event.versionResolved, Event.fetch (xcframework_url v),
            Event.tempCreated, Event.downloaded, Event.tempDeleted], fs⟩
      | NetResult.ok (ArchiveBody.valid entries) =>
        ⟨Except.ok (),
          [Event.versionResolved, Event.fetch (xcframework_url v),
            Event.tempCreated, Event.downloaded]
            ++ entries.map (fun e => Event.wrote (destPath e))
            ++ [Event.extracted, Event.tempDeleted, Event.done],
          extractAll entries fs⟩

/-! ### Concrete inputs used to instantiate the theorems -/

/-- The empty filesystem. -/
def emptyFS : FS := fun _ => none

/-- A version file text declaring version 1.2.3. -/
def sampleText : List Char := marker ++ "1.2.3".toList ++ [dquote]

/-- A version file text holding the assignment pattern twice. -/
def doubleText : List Char :=
  marker ++ "1.2.3".toList ++ [dquote] ++ marker ++ "9.9.9".toList ++ [dquote]

/-- A network that always fails to connect. -/
def netDown : List Char → NetResult := fun _ => NetResult.connectFail

/-- World with a valid version file and the network down. -/
def worldDown : World := ⟨some sampleText, netDown⟩

/-- World whose version file has no occurrence of the pattern. -/
def worldNoMatch : World := ⟨some "hello".toList, netDown⟩

/-- World without the version file. -/
def worldNoFile : World := ⟨none, netDown⟩

/-- An archive entry whose path climbs out of the target directory. -/
def evilEntry : TarEntry := ⟨["..", "evil"], "x".toList⟩

/-- World delivering the archive with the escaping entry. -/
def worldEvil : World :=
  ⟨some sampleText, fun _ => NetResult.ok (ArchiveBody.valid [evilEntry])⟩

/-- A well-behaved archive entry. -/
def goodEntry : TarEntry := ⟨["Odin.xcframework", "Info.plist"], "abc".toList⟩

/-- World delivering the well-behaved archive. -/
def worldGood : World :=
  ⟨some sampleText, fun _ => NetResult.ok (ArchiveBody.valid [goodEntry])⟩

/-! ### Properties of the quote splitter -/

lemma splitAtQuote_eq_some : ∀ {s v r : List Char}, splitAtQuote s = some (v, r) →
    s = v ++ dquote :: r ∧ dquote ∉ v := by
  intro s
  induction s with
  | nil => intro v r h; simp [splitAtQuote] at h
  | cons c cs ih =>
    intro v r h
    by_cases hc : c = dquote
    · rw [splitAtQuote, if_pos hc] at h
      simp only [Option.some.injEq, Prod.mk.injEq] at h
      obtain ⟨h1, h2⟩ := h
      subst h1; subst h2; subst hc
      simp
    · rw [splitAtQuote, if_neg hc] at h
      cases hcs : splitAtQuote cs with
      | none => rw [hcs] at h; cases h
      | some vr =>
        obtain ⟨v0, r0⟩ := vr
        rw [hcs] at h
        simp only [Option.some.injEq, Prod.mk.injEq] at h
        obtain ⟨h1, h2⟩ := h
        subst h1; subst h2
        obtain ⟨hcs1, hcs2⟩ := ih hcs
        refine ⟨by rw [List.cons_append, hcs1], ?_⟩
        simp only [List.mem_cons, not_or]
        exact ⟨fun hd => hc hd.symm, hcs2⟩

lemma splitAtQuote_append : ∀ (v r : List Char), dquote ∉ v →
    splitAtQuote (v ++ dquote :: r) = some (v, r) := by
  intro v
  induction v with
  | nil => intro r _; simp [splitAtQuote]
  | cons c v ih =>
    intro r hv
    simp only [List.mem_cons, not_or] at hv
    have hc : c ≠ dquote := fun h => hv.1 h.symm
    rw [List.cons_append, splitAtQuote, if_neg hc, ih r hv.2]

lemma quote_split_unique {a b x y : List Char} (ha : dquote ∉ a) (hb : dquote ∉ b)
    (h : a ++ dquote :: x = b ++ dquote :: y) : a = b ∧ x = y := by
  have h1 := splitAtQuote_append a x ha
  rw [h, splitAtQuote_append b y hb] at h1
  simp only [Option.some.injEq, Prod.mk.injEq] at h1
  exact ⟨h1.1.symm, h1.2.symm⟩

lemma isPrefixOf_marker_iff {s : List Char} :
    marker.isPrefixOf s = true ↔ ∃ t, s = marker ++ t := by
  rw [ List.isPrefixOf_iff_prefix]
  constructor
  · rintro ⟨t, ht⟩; exact ⟨t, ht.symm⟩
  · rintro ⟨t, rfl⟩; exact ⟨t, rfl⟩

/-! ### Characterisation of the first match of the pattern -/

lemma occ_nil_elim {c : Char} {cs v post : List Char}
    (h : IsOccurrence (c :: cs) [] v post) :
    marker.isPrefixOf (c :: cs) = true ∧
      splitAtQuote ((c :: cs).drop marker.length) = some (v, post) ∧ v ≠ [] := by
  obtain ⟨heq, hv, hq⟩ := h
  simp only [List.nil_append] at heq
  rw [List.append_assoc] at heq
  have hpre : marker.isPrefixOf (c :: cs) = true :=
    isPrefixOf_marker_iff.mpr ⟨v ++ dquote :: post, heq⟩
  have hdrop : (c :: cs).drop marker.length = v ++ dquote :: post := by
    rw [heq]; exact List.drop_left marker (v ++ dquote :: post)
  refine ⟨hpre, ?_, hv⟩
  rw [hdrop]
  exact splitAtQuote_append v post hq

lemma occ_of_match {c : Char} {cs v r : List Char}
    (hpre : marker.isPrefixOf (c :: cs) = true)
    (hsplit : splitAtQuote ((c :: cs).drop marker.length) = some (v, r))
    (hv : v ≠ []) : IsOccurrence (c :: cs) [] v r := by
  obtain ⟨t, ht⟩ := isPrefixOf_marker_iff.mp hpre
  have hdrop : (c :: cs).drop marker.length = t := by
    rw [ht]; exact List.drop_left marker t
  rw [hdrop] at hsplit
  obtain ⟨hts, hq⟩ := splitAtQuote_eq_some hsplit
  refine ⟨?_, hv, hq⟩
  rw [ht, hts, List.nil_append, List.append_assoc]

lemma occ_cons_iff {c : Char} {cs pre v post : List Char} :
    IsOccurrence (c :: cs) (c :: pre) v post ↔ IsOccurrence cs pre v post := by
  unfold IsOccurrence
  constructor
  · rintro ⟨h, hv, hq⟩
    simp only [List.cons_append] at h
    injection h with _ h2
    exact ⟨h2, hv, hq⟩
  · rintro ⟨h, hv, hq⟩
    refine ⟨?_, hv, hq⟩
    simp only [List.cons_append]
    rw [h]

lemma occ_pre_cons {c : Char} {cs pre v post : List Char}
    (h : IsOccurrence (c :: cs) pre v post) (hpre : pre ≠ []) :
    ∃ pre2, pre = c :: pre2 ∧ IsOccurrence cs pre2 v post := by
  obtain ⟨heq, hv, hq⟩ := h
  cases pre with
  | nil => exact absurd rfl hpre
  | cons d pre2 =>
    simp only [List.cons_append] at heq
    injection heq with h1 h2
    subst h1
    exact ⟨pre2, rfl, h2, hv, hq⟩

lemma occ_step_iff {c : Char} {cs v : List Char}
    (hno : ∀ v2 post2, ¬ IsOccurrence (c :: cs) [] v2 post2) :
    (∃ pre post, IsOccurrence (c :: cs) pre v post ∧
        ∀ pre2 v2 post2, IsOccurrence (c :: cs) pre2 v2 post2 → pre.length ≤ pre2.length) ↔
      (∃ pre post, IsOccurrence cs pre v post ∧
        ∀ pre2 v2 post2, IsOccurrence cs pre2 v2 post2 → pre.length ≤ pre2.length) := by
  constructor
  · rintro ⟨pre, post, hocc, hmin⟩
    have hpre_ne : pre ≠ [] := by rintro rfl; exact hno v post hocc
    obtain ⟨pre2, rfl, hocc2⟩ := occ_pre_cons hocc hpre_ne
    refine ⟨pre2, post, hocc2, ?_⟩
    intro pre3 v3 post3 h3
    have := hmin (c :: pre3) v3 post3 (occ_cons_iff.mpr h3)
    simpa using this
  · rintro ⟨pre, post, hocc, hmin⟩
    refine ⟨c :: pre, post, occ_cons_iff.mpr hocc, ?_⟩
    intro pre3 v3 post3 h3
    have hne : pre3 ≠ [] := by rintro rfl; exact hno v3 post3 h3
    obtain ⟨pre4, rfl, h4⟩ := occ_pre_cons h3 hne
    have := hmin pre4 v3 post3 h4
    simpa using this

lemma firstMatch_eq_some_iff : ∀ (s v : List Char),
    firstMatch s = some v ↔
      ∃ pre post, IsOccurrence s pre v post ∧
        ∀ pre2 v2 post2, IsOccurrence s pre2 v2 post2 → pre.length ≤ pre2.length := by
  intro s
  induction s with
  | nil =>
    intro v
    constructor
    · intro h; simp [firstMatch] at h
    · rintro ⟨pre, post, ⟨heq, hv, hq⟩, hmin⟩
      exfalso
      have hlen := congrArg List.length heq
      simp [List.length_append, marker] at hlen
      omega
  | cons c cs ih =>
    intro v
    by_cases hpre : marker.isPrefixOf (c :: cs) = true
    · cases hsplit : splitAtQuote ((c :: cs).drop marker.length) with
      | some vr =>
        obtain ⟨v0, r0⟩ := vr
        by_cases hv0 : v0 = []
        · have hstep : firstMatch (c :: cs) = firstMatch cs := by
            simp [firstMatch, hpre, hsplit, hv0]
          have hno : ∀ v2 post2, ¬ IsOccurrence (c :: cs) [] v2 post2 := by
            intro v2 post2 hocc
            obtain ⟨_, h2, hne⟩ := occ_nil_elim hocc
            rw [hsplit] at h2
            simp only [Option.some.injEq, Prod.mk.injEq] at h2
            exact hne (h2.1 ▸ hv0)
          rw [hstep]
          exact (ih v).trans (occ_step_iff hno).symm
        · have hstep : firstMatch (c :: cs) = some v0 := by
            simp [firstMatch, hpre, hsplit, hv0]
          have hocc0 : IsOccurrence (c :: cs) [] v0 r0 := occ_of_match hpre hsplit hv0
          rw [hstep]
          constructor
          · intro h
            injection h with h
            subst h
            exact ⟨[], r0, hocc0, fun pre2 v2 post2 _ => Nat.zero_le _⟩
          · rintro ⟨pre, post, hocc, hmin⟩
            have h0 : pre.length ≤ 0 := hmin [] v0 r0 hocc0
            have hpre_nil : pre = [] := List.eq_nil_of_length_eq_zero (Nat.le_zero.mp h0)
            subst hpre_nil
            obtain ⟨heq, hv, hq⟩ := hocc
            obtain ⟨heq0, hv0n, hq0⟩ := hocc0
            rw [List.nil_append] at heq heq0
            rw [heq0] at heq
            rw [List.append_assoc marker v0, List.append_assoc marker v] at heq
            have heq2 := List.append_cancel_left heq
            obtain ⟨h1, _⟩ := quote_split_unique hq0 hq heq2
            rw [h1]
      | none =>
        have hstep : firstMatch (c :: cs) = firstMatch cs := by
          simp [firstMatch, hpre, hsplit]
        have hno : ∀ v2 post2, ¬ IsOccurrence (c :: cs) [] v2 post2 := by
          intro v2 post2 hocc
          obtain ⟨_, h2, _⟩ := occ_nil_elim hocc
          rw [hsplit] at h2
          cases h2
        rw [hstep]
        exact (ih v).trans (occ_step_iff hno).symm
    · have hstep : firstMatch (c :: cs) = firstMatch cs := by
        simp [firstMatch, hpre]
      have hno : ∀ v2 post2, ¬ IsOccurrence (c :: cs) [] v2 post2 := by
        intro v2 post2 hocc
        exact hpre (occ_nil_elim hocc).1
      rw [hstep]
      exact (ih v).trans (occ_step_iff hno).symm

lemma findallAux_head : ∀ (fuel : Nat) (s : List Char), s.length ≤ fuel →
    (findallAux fuel s).head? = firstMatch s := by
  intro fuel
  induction fuel with
  | zero =>
    intro s h
    have hs : s = [] := List.eq_nil_of_length_eq_zero (Nat.le_zero.mp h)
    subst hs; rfl
  | succ fuel ih =>
    intro s h
    cases s with
    | nil => rfl
    | cons c cs =>
      have hle : cs.length ≤ fuel := by
        simp only [List.length_cons] at h; omega
      by_cases hpre : marker.isPrefixOf (c :: cs) = true
      · cases hsplit : splitAtQuote ((c :: cs).drop marker.length) with
        | some vr =>
          obtain ⟨v0, r0⟩ := vr
          by_cases hv0 : v0 = []
          · simp only [findallAux, firstMatch, hpre, if_true, hsplit, hv0, if_pos]
            exact ih cs hle
          · simp [findallAux, firstMatch, hpre, hsplit, hv0]
        | none =>
          simp only [findallAux, firstMatch, hpre, if_true, hsplit]
          exact ih cs hle
      · simp only [findallAux, firstMatch, hpre, if_false]
        exact ih cs hle

/-- The extraction of Setup.py equals the first-match scan. -/
lemma get_eq_firstMatch (text : List Char) :
    get_xcframework_version text = firstMatch text :=
  findallAux_head text.length text le_rfl

lemma exists_minimal_occ {s pre v post : List Char} (h : IsOccurrence s pre v post) :
    ∃ pre1 v1 post1, IsOccurrence s pre1 v1 post1 ∧
      ∀ pre2 v2 post2, IsOccurrence s pre2 v2 post2 → pre1.length ≤ pre2.length := by
  classical
  have hex : ∃ n, ∃ pre1 v1 post1, pre1.length = n ∧ IsOccurrence s pre1 v1 post1 :=
    ⟨pre.length, pre, v, post, rfl, h⟩
  obtain ⟨pre1, v1, post1, hlen, hocc⟩ := Nat.find_spec hex
  refine ⟨pre1, v1, post1, hocc, ?_⟩
  intro pre2 v2 post2 h2
  have hmin := Nat.find_min' hex ⟨pre2, v2, post2, rfl, h2⟩
  omega

lemma firstMatch_eq_none_iff (s : List Char) :
    firstMatch s = none ↔ ∀ pre v post, ¬ IsOccurrence s pre v post := by
  constructor
  · intro h pre v post hocc
    obtain ⟨pre1, v1, post1, h1, hmin⟩ := exists_minimal_occ hocc
    have hsome := (firstMatch_eq_some_iff s v1).mpr ⟨pre1, post1, h1, hmin⟩
    rw [h] at hsome
    cases hsome
  · intro h
    cases hm : firstMatch s with
    | none => rfl
    | some v =>
      obtain ⟨pre, post, hocc, _⟩ := (firstMatch_eq_some_iff s v).mp hm
      exact absurd hocc (h pre v post)

/-! ### Properties of extraction into the filesystem -/

lemma extractAll_apply : ∀ (entries : List TarEntry) (fs : FS) (p : List String),
    extractAll entries fs p = orDefault (lastWrite entries p) (fs p) := by
  intro entries
  induction entries with
  | nil => intro fs p; simp [extractAll, lastWrite, orDefault]
  | cons e es ih =>
    intro fs p
    have hstep : extractAll (e :: es) fs = extractAll es (writeFile fs (destPath e) e.content) := rfl
    rw [hstep, ih]
    have hlast : lastWrite (e :: es) p =
        orDefault (lastWrite es p)
          (if destPath e = p then some e.content else none) := by
      simp only [lastWrite, List.reverse_cons, List.find?_append]
      cases hfind : (es.reverse.find? (fun x => decide (destPath x = p))) with
      | some x => simp [orDefault, hfind, Option.orElse]
      | none =>
        by_cases hd : destPath e = p
        · simp [orDefault, hfind, hd, List.find?, Option.orElse]
        · simp [orDefault, hfind, hd, List.find?, Option.orElse]
    rw [hlast]
    cases hlw : lastWrite es p with
    | some c => simp [orDefault]
    | none =>
      by_cases hd : destPath e = p
      · simp [orDefault, writeFile, hd]
      · simp only [orDefault, writeFile]
        rw [if_neg (fun h => hd (h.symm : destPath e = p)), if_neg hd]

lemma extractAll_idem (entries : List TarEntry) (fs : FS) :
    extractAll entries (extractAll entries fs) = extractAll entries fs := by
  funext p
  rw [extractAll_apply, extractAll_apply]
  cases lastWrite entries p with
  | some c => simp [orDefault]
  | none => simp [orDefault]

lemma extractAll_none {entries : List TarEntry} {fs : FS} {p : List String}
    (h : extractAll entries fs p = none) : fs p = none := by
  rw [extractAll_apply] at h
  cases hlw : lastWrite entries p with
  | some c => rw [hlw] at h; simp [orDefault] at h
  | none => rw [hlw] at h; simpa [orDefault] using h

lemma lastWrite_mem {e : TarEntry} {entries : List TarEntry}
    (h : e ∈ entries) : ∃ c, lastWrite entries (destPath e) = some c := by
  have hmem : e ∈ entries.reverse := List.mem_reverse.mpr h
  have hsome : (entries.reverse.find? (fun x => decide (destPath x = destPath e))).isSome := by
    rw [List.find?_isSome]
    exact ⟨e, hmem, by simp⟩
  obtain ⟨x, hx⟩ := Option.isSome_iff_exists.mp hsome
  exact ⟨x.content, by simp [lastWrite, hx]⟩

lemma resolvePath_no_dotdot : ∀ (comps : List String) (base : List String),
    ".." ∉ comps → resolvePath base comps = base ++ comps := by
  intro comps
  induction comps with
  | nil => intro base _; simp [resolvePath]
  | cons c rest ih =>
    intro base h
    simp only [List.mem_cons, not_or] at h
    have hc : c ≠ ".." := fun hh => h.1 hh.symm
    rw [resolvePath, if_neg hc, ih (base ++ [c]) h.2, List.append_assoc]
    rfl

/-- The URL template with the base spelled out in full. -/
lemma url_template (v : List Char) :
    xcframework_url v =
      "https://github.com/4Players/odin-sdk/releases/download/v".toList ++ v
        ++ "/odin-xcframework.tgz".toList := by
  have hbase : coresdk_url ++ "/releases/download/v".toList =
      "https://github.com/4Players/odin-sdk/releases/download/v".toList := by decide
  rw [xcframework_url, hbase]

/-- Filtering the per-entry write events keeps no phase marker. -/
lemma filter_isPhase_wrote (entries : List TarEntry) :
    (entries.map (fun e => Event.wrote (destPath e))).filter isPhase = [] := by
  induction entries with
  | nil => rfl
  | cons e es ih => simp [List.filter_cons, isPhase, ih]

/-! ### The claims -/

/-- C1: whenever the version extracted from the version file is `v`, the
download URL the run fetches is exactly the fixed template
`https://github.com/4Players/odin-sdk/releases/download/v` ++ v ++
`/odin-xcframework.tgz`, with the version substituted exactly once. -/
theorem url_from_extracted_version (w : World) (fs : FS) (text v : List Char)
    (h1 : w.versionFile = some text)
    (h2 : get_xcframework_version text = some v) :
    xcframework_url v =
      "https://github.com/4Players/odin-sdk/releases/download/v".toList ++ v
        ++ "/odin-xcframework.tgz".toList ∧
      Event.fetch (xcframework_url v) ∈ (run w fs).trace := by
  refine ⟨url_template v, ?_⟩
  cases h3 : w.network (xcframework_url v) with
  | connectFail => simp [run, h1, h2, h3]
  | readFail => simp [run, h1, h2, h3]
  | ok body =>
    cases body with
    | corrupt => simp [run, h1, h2, h3]
    | valid entries => simp [run, h1, h2, h3]

/-- Witness for C1 at the version file declaring 1.2.3. -/
theorem url_from_extracted_version_witness :
    xcframework_url "1.2.3".toList =
      "https://github.com/4Players/odin-sdk/releases/download/v".toList ++ "1.2.3".toList
        ++ "/odin-xcframework.tgz".toList ∧
      Event.fetch (xcframework_url "1.2.3".toList) ∈ (run worldDown emptyFS).trace :=
  url_from_extracted_version worldDown emptyFS sampleText ("1.2.3".toList) rfl (by decide)

/-- C2: the extraction returns `some v` exactly when `v` is the contents of
the first occurrence of the pattern — the quoted substring following the
fixed identifier, up to but not including the closing quote, containing no
double quote — and fails otherwise. -/
theorem extraction_returns_first_quoted_value (text v : List Char) :
    get_xcframework_version text = some v ↔
      ∃ pre post, IsOccurrence text pre v post ∧
        ∀ pre2 v2 post2, IsOccurrence text pre2 v2 post2 → pre.length ≤ pre2.length := by
  rw [get_eq_firstMatch]
  exact firstMatch_eq_some_iff text v

/-- C3 counterexample: a version file holding the assignment pattern twice
does not make retrieval fail; findall finds two matches and the retrieval
succeeds with the first. -/
theorem double_occurrence_still_succeeds :
    (findall doubleText).length = 2 ∧
      get_xcframework_version doubleText = some "1.2.3".toList := by
  decide

/-- C3 (amended): retrieval fails exactly when the version token is not
present at least once in the expected form; when the pattern is present more
than once retrieval still succeeds, with the first occurrence. -/
theorem extraction_fails_iff_no_occurrence (text : List Char) :
    get_xcframework_version text = none ↔
      ∀ pre v post, ¬ IsOccurrence text pre v post := by
  rw [get_eq_firstMatch]
  exact firstMatch_eq_none_iff text

/-- C4: when the version file exists but its text has no match for the
pattern, the run fails with the format error and its trace is empty — in
particular no network request was made. -/
theorem missing_pattern_fails_before_network (w : World) (fs : FS) (text : List Char)
    (h1 : w.versionFile = some text)
    (h2 : get_xcframework_version text = none) :
    (run w fs).result = Except.error RunError.formatError ∧ (run w fs).trace = [] := by
  simp [run, h1, h2]

/-- Witness for C4 at a version file with no occurrence of the pattern. -/
theorem missing_pattern_fails_before_network_witness :
    (run worldNoMatch emptyFS).result = Except.error RunError.formatError ∧
      (run worldNoMatch emptyFS).trace = [] :=
  missing_pattern_fails_before_network worldNoMatch emptyFS ("hello".toList) rfl (by decide)

/-- C5: when the version file is absent the run fails with the NotFound
error, with an empty trace (no network request, no write) and the
filesystem untouched. -/
theorem missing_file_fails_notfound (w : World) (fs : FS)
    (h : w.versionFile = none) :
    (run w fs).result = Except.error RunError.notFound ∧
      (run w fs).trace = [] ∧ (run w fs).fs = fs := by
  simp [run, h]

/-- Witness for C5 at the world without a version file. -/
theorem missing_file_fails_notfound_witness :
    (run worldNoFile emptyFS).result = Except.error RunError.notFound ∧
      (run worldNoFile emptyFS).trace = [] ∧ (run worldNoFile emptyFS).fs = emptyFS :=
  missing_file_fails_notfound worldNoFile emptyFS rfl

/-- C6: on every exit path of the run, the scoped temporary file is created
exactly when it is deleted: no run terminates having created the buffer
without deleting it. -/
theorem temp_file_always_released (w : World) (fs : FS) :
    (Event.tempCreated ∈ (run w fs).trace ↔ Event.tempDeleted ∈ (run w fs).trace) := by
  cases h1 : w.versionFile with
  | none => simp [run, h1]
  | some text =>
    cases h2 : get_xcframework_version text with
    | none => simp [run, h1, h2]
    | some v =>
      cases h3 : w.network (xcframework_url v) with
      | connectFail => simp [run, h1, h2, h3]
      | readFail => simp [run, h1, h2, h3]
      | ok body =>
        cases body with
        | corrupt => simp [run, h1, h2, h3]
        | valid entries => simp [run, h1, h2, h3]

/-- C7 counterexample: an archive entry whose path starts with `..` is
written outside the Frameworks directory: its destination is not under
Frameworks, and the run writes it there. -/
theorem entry_escapes_frameworks :
    destPath evilEntry = ["evil"] ∧
      ¬ (frameworks_dir <+: destPath evilEntry) ∧
      (run worldEvil emptyFS).fs ["evil"] = some "x".toList := by
  decide

/-- C7 (amended): every archive entry whose path is nonempty and has no
`..` component lands strictly under the Frameworks directory, and every
entry's destination ends up holding the archive's (last) content stored for
that destination, overwriting whatever the filesystem held there. -/
theorem safe_entries_land_under_frameworks (w : World) (fs : FS) (text v : List Char)
    (entries : List TarEntry)
    (h1 : w.versionFile = some text)
    (h2 : get_xcframework_version text = some v)
    (h3 : w.network (xcframework_url v) = NetResult.ok (ArchiveBody.valid entries)) :
    (∀ e ∈ entries, e.path ≠ [] → ".." ∉ e.path →
        frameworks_dir <+: destPath e ∧ destPath e ≠ frameworks_dir) ∧
      ∀ e ∈ entries, ∃ c, lastWrite entries (destPath e) = some c ∧
        (run w fs).fs (destPath e) = some c := by
  have hfs : (run w fs).fs = extractAll entries fs := by simp [run, h1, h2, h3]
  constructor
  · intro e _ hne hdd
    have hd : destPath e = frameworks_dir ++ e.path :=
      resolvePath_no_dotdot e.path frameworks_dir hdd
    constructor
    · rw [hd]; exact ⟨e.path, rfl⟩
    · rw [hd]
      intro hcontra
      have hlen := congrArg List.length hcontra
      simp only [List.length_append, frameworks_dir, List.length_cons,
        List.length_nil] at hlen
      have hz : e.path.length = 0 := by omega
      exact hne (List.eq_nil_of_length_eq_zero hz)
  · intro e he
    obtain ⟨c, hc⟩ := lastWrite_mem he
    refine ⟨c, hc, ?_⟩
    rw [hfs, extractAll_apply, hc]
    rfl

/-- Witness for the amended C7 at a one-entry well-behaved archive. -/
theorem safe_entries_land_under_frameworks_witness :
    (∀ e ∈ [goodEntry], e.path ≠ [] → ".." ∉ e.path →
        frameworks_dir <+: destPath e ∧ destPath e ≠ frameworks_dir) ∧
      ∀ e ∈ [goodEntry], ∃ c, lastWrite [goodEntry] (destPath e) = some c ∧
        (run worldGood emptyFS).fs (destPath e) = some c :=
  safe_entries_land_under_frameworks worldGood emptyFS sampleText ("1.2.3".toList)
    [goodEntry] rfl (by decide) rfl

/-- C8: the run is the linear state machine Idle, VersionResolved,
Downloaded, Extracted, Done: the phase markers of the trace are a prefix of
the full sequence, the run succeeds exactly when the whole sequence was
walked, and any network request happens only after version resolution. -/
theorem run_is_linear_state_machine (w : World) (fs : FS) :
    ((run w fs).trace.filter isPhase) <+: phaseList ∧
      ((run w fs).result = Except.ok () ↔ (run w fs).trace.filter isPhase = phaseList) ∧
      ∀ u, Event.fetch u ∈ (run w fs).trace → Event.versionResolved ∈ (run w fs).trace := by
  cases h1 : w.versionFile with
  | none =>
    refine ⟨?_, ?_, ?_⟩ <;> simp [run, h1, phaseList]
  | some text =>
    cases h2 : get_xcframework_version text with
    | none => refine ⟨?_, ?_, ?_⟩ <;> simp [run, h1, h2, phaseList]
    | some v =>
      cases h3 : w.network (xcframework_url v) with
      | connectFail =>
        refine ⟨?_, ?_, ?_⟩ <;> simp [run, h1, h2, h3, phaseList, isPhase, List.filter_cons]
      | readFail =>
        refine ⟨?_, ?_, ?_⟩ <;> simp [run, h1, h2, h3, phaseList, isPhase, List.filter_cons]
      | ok body =>
        cases body with
        | corrupt =>
          refine ⟨?_, ?_, ?_⟩ <;> simp [run, h1, h2, h3, phaseList, isPhase, List.filter_cons]
        | valid entries =>
          refine ⟨?_, ?_, ?_⟩ <;>
            simp [run, h1, h2, h3, phaseList, isPhase, List.filter_cons,
              List.filter_append, filter_isPhase_wrote]

/-- C9: a second run over the filesystem the first run produced yields the
same filesystem (overwrite semantics), and a run never erases a file that
existed before it. -/
theorem run_idempotent (w : World) (fs : FS) :
    (run w ((run w fs).fs)).fs = (run w fs).fs ∧
      ∀ p, (run w fs).fs p = none → fs p = none := by
  cases h1 : w.versionFile with
  | none =>
    constructor
    · simp [run, h1]
    · intro p hp; simpa [run, h1] using hp
  | some text =>
    cases h2 : get_xcframework_version text with
    | none =>
      constructor
      · simp [run, h1, h2]
      · intro p hp; simpa [run, h1, h2] using hp
    | some v =>
      cases h3 : w.network (xcframework_url v) with
      | connectFail =>
        constructor
        · simp [run, h1, h2, h3]
        · intro p hp; simpa [run, h1, h2, h3] using hp
      | readFail =>
        constructor
        · simp [run, h1, h2, h3]
        · intro p hp; simpa [run, h1, h2, h3] using hp
      | ok body =>
        cases body with
        | corrupt =>
          constructor
          · simp [run, h1, h2, h3]
          · intro p hp; simpa [run, h1, h2, h3] using hp
        | valid entries =>
          constructor
          · simp only [run, h1, h2, h3]
            exact extractAll_idem entries fs
          · intro p hp
            exact extractAll_none (by simpa [run, h1, h2, h3] using hp)

/-- C10: the extracted version is spliced into the URL verbatim, with no
validation or escaping: any nonempty quote-free character sequence between
the quotes is extracted unchanged and appears unchanged in the constructed
URL. -/
theorem version_spliced_verbatim (v post : List Char)
    (hne : v ≠ []) (hq : dquote ∉ v) :
    get_xcframework_version (marker ++ v ++ dquote :: post) = some v ∧
      xcframework_url v =
        "https://github.com/4Players/odin-sdk/releases/download/v".toList ++ v
          ++ "/odin-xcframework.tgz".toList := by
  refine ⟨?_, url_template v⟩
  rw [get_eq_firstMatch]
  apply (firstMatch_eq_some_iff _ v).mpr
  refine ⟨[], post, ⟨by simp, hne, hq⟩, fun pre2 v2 post2 _ => Nat.zero_le _⟩

/-- Witness for C10 at a version string holding spaces, slashes and a
path-climbing component. -/
theorem version_spliced_verbatim_witness :
    get_xcframework_version (marker ++ "../1 2/x".toList ++ dquote :: "tail".toList) =
        some "../1 2/x".toList ∧
      xcframework_url "../1 2/x".toList =
        "https://github.com/4Players/odin-sdk/releases/download/v".toList
          ++ "../1 2/x".toList ++ "/odin-xcframework.tgz".toList :=
  version_spliced_verbatim ("../1 2/x".toList) ("tail".toList) (by decide) (by decide)

end OdinSetup